import Mathlib

/-!
Shallow embedding of the who-tests-what pytest plugin (run_wtw.py) together
with proofs about the behaviour its specification describes.  Strings are
modelled as lists of characters, Python ints as Lean integers or naturals,
byte strings as lists of naturals below 256, and the SQLite tables of the
coverage baseline as lists of records.
-/

namespace WTW

abbrev Str := List Char

def slash : Char := '/'

/-- Character-wise longest common prefix of two strings, the binary step of
the fold modelling os.path.commonprefix. -/
def lcp2 : Str → Str → Str
  | c :: cs, d :: ds => if c = d then c :: lcp2 cs ds else []
  | _, _ => []

/-- Models os.path.commonprefix: the longest common character-wise leading
substring of all the given strings, the empty string for an empty list. -/
def commonprefix_chars (ps : List Str) : Str :=
  match ps with
  | [] => []
  | p :: rest => rest.foldl lcp2 p

/-- Whether the separator occurs in s starting at index k. -/
def sub_at (sep s : Str) (k : Nat) : Bool :=
  sep.isPrefixOf (s.drop k)

/-- Index of the first occurrence of the (non-empty) separator in s, as used
by str.partition. -/
def first_occ (sep : Str) : Str → Option Nat
  | [] => if sep.isPrefixOf [] then some 0 else none
  | c :: t => if sep.isPrefixOf (c :: t) then some 0 else (first_occ sep t).map (· + 1)

/-- Index of the last occurrence of the (non-empty) separator in s, as used
by str.rpartition and str.rfind. -/
def last_occ (sep : Str) : Str → Option Nat
  | [] => if sep.isPrefixOf [] then some 0 else none
  | c :: t =>
    match last_occ sep t with
    | some k => some (k + 1)
    | none => if sep.isPrefixOf (c :: t) then some 0 else none

/-- The part of s before the first occurrence of sep, s itself when sep does
not occur: the first component of Python str.partition. -/
def partition_before (sep s : Str) : Str :=
  match first_occ sep s with
  | some k => s.take k
  | none => s

/-- The part of s before the last occurrence of sep, the empty string when
sep does not occur: the first component of Python str.rpartition. -/
def rpartition_before (sep s : Str) : Str :=
  match last_occ sep s with
  | some k => s.take k
  | none => []

/-- Remove every trailing path separator, the rstrip step of posixpath.dirname. -/
def rstrip_slash (s : Str) : Str :=
  (s.reverse.dropWhile (fun c => c = slash)).reverse

/-- The cut index of posixpath.dirname: one past the last separator, zero
when there is none (rfind plus one). -/
def dirname_idx (p : Str) : Nat :=
  match last_occ [slash] p with
  | some k => k + 1
  | none => 0

/-- The head kept by posixpath.dirname before trailing-separator stripping. -/
def dirname_head (p : Str) : Str :=
  p.take (dirname_idx p)

/-- Models posixpath.dirname: everything up to and including the last
separator, with trailing separators stripped unless the head is empty or all
separators. -/
def posix_dirname (p : Str) : Str :=
  if dirname_head p ≠ [] ∧ ¬ (dirname_head p).all (fun c => c = slash) = true then
    rstrip_slash (dirname_head p)
  else dirname_head p

/-- Whether the string ends with the path separator. -/
def ends_with_slash (s : Str) : Bool :=
  match s.getLast? with
  | some c => c = slash
  | none => false

/-- Models the common-prefix computation of who_tested_what (run_wtw.py lines
76-80): the character-wise common prefix of the baseline file paths, replaced
by its dirname when it does not already end in a separator. -/
def wtw_common_dir (all_files : List Str) : Str :=
  if ends_with_slash (commonprefix_chars all_files) = true then commonprefix_chars all_files
  else posix_dirname (commonprefix_chars all_files)

/-- Models os.path.abspath for inputs already in normal form: a relative path
is joined to the current working directory, an absolute path is returned
unchanged. -/
def os_path_abspath (cwd p : Str) : Str :=
  if p.head? = some slash then p else cwd ++ slash :: p

/-- Models joining with the pathlib / operator for inputs already in normal
form: an absolute right operand replaces the left one. -/
def path_join (a b : Str) : Str :=
  if b.head? = some slash then b else a ++ slash :: b

/-- Maximum of a list of naturals, modelling Python max over the staged line
sets; Python raises on an empty collection, which callers rule out. -/
def max_list (l : List Nat) : Nat := l.foldl max 0

/-- One iteration of the set_to_bitmask loop: set bit num mod 8 of byte
num div 8. -/
def set_bit (b : List Nat) (num : Nat) : List Nat :=
  b.set (num / 8) (b.getD (num / 8) 0 ||| 1 <<< (num % 8))

/-- Models set_to_bitmask (run_wtw.py lines 180-185): a zeroed byte array of
max(nums) div 8 + 1 bytes in which each line number sets one bit. -/
def set_to_bitmask (nums : List Nat) : List Nat :=
  nums.foldl set_bit (List.replicate (max_list nums / 8 + 1) 0)

/-- Models itertools.izip_longest with a zero byte as fill value. -/
def zip_longest0 : List Nat → List Nat → List (Nat × Nat)
  | [], bs => bs.map (fun b => (0, b))
  | a :: xs, [] => (a, 0) :: zip_longest0 xs []
  | a :: xs, b :: bs => (a, b) :: zip_longest0 xs bs

/-- Models any_intersection (run_wtw.py lines 188-191): 1 when some byte
position carries a common bit of the two masks, the shorter mask implicitly
zero-padded, else 0. -/
def any_intersection (bits1 bits2 : List Nat) : Nat :=
  if (zip_longest0 bits1 bits2).any (fun p => p.1 &&& p.2 != 0) then 1 else 0

/-- One hunk of the unified diff: the source-side start line and length, the
nonnegative integers parsed by unidiff. -/
structure Hunk where
  source_start : Nat
  source_length : Nat
deriving DecidableEq

/-- One file entry of the unified diff. -/
structure DiffFile where
  path : Str
  hunks : List Hunk
deriving DecidableEq

abbrev Diff := List DiffFile

/-- Python range(a, b) over integers, listed in order. -/
def pyrange (a b : Int) : List Int :=
  (List.range (b - a).toNat).map (fun i : Nat => a + (i : Int))

/-- The padded line range a hunk contributes: Python
range(source_start - 1, source_start + source_length + 1). -/
def hunk_lines (h : Hunk) : List Int :=
  pyrange ((h.source_start : Int) - 1) ((h.source_start : Int) + (h.source_length : Int) + 1)

/-- The set of changed source lines recorded for path p, accumulated over
every diff entry with that path as the defaultdict loop of who_tested_what
does; the Python set is modelled up to multiplicity by the list of
contributed lines, whose membership, maximum and bitmask agree with it. -/
def source_lines_changed (diff : Diff) (p : Str) : List Int :=
  (diff.filter (fun f => f.path == p)).foldl
    (fun s f => f.hunks.foldl (fun s2 h => s2 ++ hunk_lines h) s) []

/-- Deduplication keeping the first occurrence, the key order of a Python
dict. -/
def dedup_first (l : List Str) : List Str :=
  l.foldl (fun acc x => if acc.contains x then acc else acc ++ [x]) []

/-- The keys of the source_lines_changed dict: paths of diff entries that
carry at least one hunk, first occurrence first. -/
def staged_paths (diff : Diff) : List Str :=
  dedup_first ((diff.filter (fun f => !f.hunks.isEmpty)).map (fun f => f.path))

/-- A row of the baseline file table. -/
structure FileRow where
  id : Nat
  path : Str
deriving DecidableEq

/-- A row of the baseline line_map table. -/
structure LineMapRow where
  file_id : Nat
  bitmap : List Nat
  context_id : Nat
deriving DecidableEq

/-- A row of the baseline context table. -/
structure ContextRow where
  id : Nat
  context : Str
deriving DecidableEq

/-- The relational coverage baseline. -/
structure Baseline where
  file : List FileRow
  line_map : List LineMapRow
  context : List ContextRow
deriving DecidableEq

/-- The staged line values as naturals; faithful to the Python integers
whenever every padded line is nonnegative. -/
def lines_as_nats (s : List Int) : List Nat :=
  s.map Int.toNat

/-- The rows inserted into the transient diff_lines table (run_wtw.py lines
50-53): the cwd-absolutized path of each changed file paired with the bitmask
of its padded changed lines. -/
def staged_rows (cwd : Str) (diff : Diff) : List (Str × List Nat) :=
  (staged_paths diff).map (fun p =>
    (os_path_abspath cwd p, set_to_bitmask (lines_as_nats (source_lines_changed diff p))))

/-- The SELECT DISTINCT c.context join of who_tested_what (run_wtw.py lines
85-99): diff_lines joined to file on raw path equality, to line_map on file
identity and mask intersection, and to context on context identity, keeping
only non-empty context strings. -/
def resolved_rows (db : Baseline) (staged : List (Str × List Nat)) : List Str :=
  dedup_first (staged.flatMap (fun dl =>
    (db.file.filter (fun f => dl.1 == f.path)).flatMap (fun f =>
      (db.line_map.filter
          (fun l => (any_intersection dl.2 l.bitmap != 0) && l.file_id == f.id)).flatMap
        (fun l =>
          (db.context.filter (fun c => l.context_id == c.id && c.context != [])).map
            (fun c => c.context)))))

def pipe_sep : Str := ['|']

def colon_sep : Str := [':', ':']

/-- The specifier of a raw context row: everything before the last pipe, as
context.rpartition of the source does. -/
def context_specifier (c : Str) : Str := rpartition_before pipe_sep c

/-- The file part of a specifier: everything before the first double colon,
as specifier.partition of the source does. -/
def specifier_file (s : Str) : Str := partition_before colon_sep s

/-- The inputs of one invocation of who_tested_what. -/
structure WTWInput where
  cwd : Str
  rootdir : Str
  diff : Diff
  db : Baseline
deriving DecidableEq

/-- The memoized triple computed by who_tested_what. -/
structure WTWResult where
  files_changed : Finset Str
  context_files : Finset Str
  contexts : Finset Str
deriving DecidableEq

/-- Models WTWPlugin.who_tested_what (run_wtw.py lines 27-105). -/
def who_tested_what (inp : WTWInput) : WTWResult :=
  let rows := resolved_rows inp.db (staged_rows inp.cwd inp.diff)
  { files_changed := (inp.diff.map (fun f => path_join inp.rootdir f.path)).toFinset
    context_files :=
      (rows.map (fun c => path_join inp.rootdir (specifier_file (context_specifier c)))).toFinset
    contexts := (rows.map context_specifier).toFinset }

/-- The configuration options the plugin consumes. -/
structure Config where
  wtw : Option String
  wtwdb : Option String
  verbose : Int
deriving DecidableEq

/-- Python truthiness of a store-action option value: None and the empty
string are falsy. -/
def truthy : Option String → Bool
  | none => false
  | some s => !s.isEmpty

/-- Models the activation test of WTWPlugin.__init__: all options of
(wtw, wtwdb) are truthy. -/
def wtw_active (cfg : Config) : Bool := truthy cfg.wtw && truthy cfg.wtwdb

/-- A collected test item, identified by its node id. -/
structure Item where
  nodeid : Str
deriving DecidableEq

/-- Models WTWPlugin.pytest_ignore_collect: the returned ignore decision and
the updated skipped-files counter. -/
def pytest_ignore_collect (cfg : Config) (skipped_files : Nat) (p : Str) (isfile : Bool)
    (files_changed context_files : Finset Str) : Option Bool × Nat :=
  if wtw_active cfg && truthy cfg.wtw && isfile then
    if p ∉ files_changed ∪ context_files then (some true, skipped_files + 1)
    else (some false, skipped_files)
  else (none, skipped_files)

/-- Models the status string built by pytest_collection_modifyitems
(run_wtw.py lines 145-154), noun choices included. -/
def report_status (n_selected n_deselected skipped_files : Nat) : String :=
  let noun := if n_selected ≠ 0 then "tests" else "test"
  let base := toString n_selected ++ " " ++ noun ++ " cover the changed lines (" ++
    toString n_deselected ++ " deselected)"
  if skipped_files > 0 then
    let files_noun := if skipped_files = 1 then "file" else "files"
    base ++ " (skipped " ++ toString skipped_files ++ " " ++ files_noun ++ ")"
  else base

/-- The selection predicate of pytest_collection_modifyitems: the node id is
a known context specifier, or the part of the node id before the first double
colon equals a changed file. -/
def item_selected (it : Item) (files_changed contexts : Finset Str) : Bool :=
  decide (it.nodeid ∈ contexts) || decide (partition_before colon_sep it.nodeid ∈ files_changed)

/-- Models WTWPlugin.pytest_collection_modifyitems: the kept items, the
deselected items and the stored report status. -/
def pytest_collection_modifyitems (cfg : Config) (items : List Item)
    (files_changed contexts : Finset Str) (skipped_files : Nat) :
    List Item × List Item × Option String :=
  if wtw_active cfg then
    let selected := items.filter (fun it => item_selected it files_changed contexts)
    let skipped := items.filter (fun it => !selected.contains it)
    (selected, skipped, some (report_status selected.length skipped.length skipped_files))
  else (items, [], none)

/-- Models WTWPlugin.pytest_report_collectionfinish: the emitted line, when
any. -/
def pytest_report_collectionfinish (cfg : Config) (report_st : Option String) : Option String :=
  if wtw_active cfg && decide (0 ≤ cfg.verbose) then
    some ("run-last-failure: " ++ (match report_st with | some s => s | none => "None"))
  else none

/-- The same invocation input with the empty-string context rows removed from
the baseline context table. -/
def drop_empty_contexts (inp : WTWInput) : WTWInput :=
  { inp with db := { inp.db with context := inp.db.context.filter (fun c => c.context != []) } }

/-- The byte that the line numbers of nums contribute at byte index k: the
bitwise or of one bit per line falling into that byte. -/
def mask_at (nums : List Nat) (k : Nat) : Nat :=
  nums.foldr (fun n m => if n / 8 = k then 1 <<< (n % 8) ||| m else m) 0

/-- Stated from the spec sentence on item selection: out is the substring of
s strictly before the first occurrence of sep, or s itself when sep does not
occur. -/
def splits_at_first (sep s out : Str) : Prop :=
  (∃ k, sub_at sep s k = true ∧ (∀ j, j < k → sub_at sep s j = false) ∧ out = s.take k) ∨
  ((∀ j, sub_at sep s j = false) ∧ out = s)

/-- Concrete diff for the path-reconciliation scenario: one file a.py with
one hunk of source start 2 and length 1. -/
def c1_diff : Diff := [⟨"a.py".toList, [⟨2, 1⟩]⟩]

/-- Concrete baseline for the path-reconciliation scenario: a.py recorded
under the absolute root /repo, with a bitmap covering lines 1 and 2 under the
context of test tx. -/
def c1_db : Baseline :=
  ⟨[⟨1, "/repo/a.py".toList⟩], [⟨1, [6], 7⟩], [⟨7, "t.py::tx|call".toList⟩]⟩

/-- The path-reconciliation scenario: the invocation runs from /work while
the baseline was recorded under /repo. -/
def c1_input : WTWInput := ⟨"/work".toList, "/repo".toList, c1_diff, c1_db⟩

/-- Filtering by a predicate that the inner filter already entails changes
nothing. -/
theorem filter_filter_absorb {α : Type} (l : List α) (p q : α → Bool)
    (h : ∀ a, p a = true → q a = true) :
    (l.filter q).filter p = l.filter p := by
  rw [List.filter_filter]
  apply List.filter_congr
  intro a _
  cases hp : p a with
  | false => simp
  | true => simp [h a hp]

/-- The resolution query ignores empty-string context rows: removing them
from the context table leaves the resolved rows unchanged. -/
theorem resolved_rows_drop_empty (db : Baseline) (staged : List (Str × List Nat)) :
    resolved_rows { db with context := db.context.filter (fun c => c.context != []) } staged =
      resolved_rows db staged := by
  have hctx : ∀ lm : LineMapRow,
      (db.context.filter (fun c => c.context != [])).filter
          (fun c => lm.context_id == c.id && c.context != []) =
        db.context.filter (fun c => lm.context_id == c.id && c.context != []) := by
    intro lm
    apply filter_filter_absorb
    intro a ha
    exact (Bool.and_eq_true _ _ |>.mp ha).2
  unfold resolved_rows
  simp only [hctx]

/-- C6: a context row whose context string is empty never contributes to the
resolved contexts or to context_files, whatever the diff and the rest of the
baseline: removing all such rows leaves the whole impact result unchanged. -/
theorem c6_empty_context_excluded (inp : WTWInput) :
    who_tested_what (drop_empty_contexts inp) = who_tested_what inp := by
  unfold who_tested_what drop_empty_contexts
  simp only [resolved_rows_drop_empty]

/-- C9: with the feature inactive every hook is a pass-through: no path is
skipped and the counter is untouched, the item list is unchanged with nothing
deselected, and no status line is emitted. -/
theorem c9_inactive_passthrough (cfg : Config) (hin : wtw_active cfg = false) :
    (∀ (skipped : Nat) (p : Str) (isfile : Bool) (fc cf : Finset Str),
        pytest_ignore_collect cfg skipped p isfile fc cf = (none, skipped)) ∧
    (∀ (items : List Item) (fc ctxs : Finset Str) (skipped : Nat),
        pytest_collection_modifyitems cfg items fc ctxs skipped = (items, [], none)) ∧
    (∀ st : Option String, pytest_report_collectionfinish cfg st = none) := by
  refine ⟨?_, ?_, ?_⟩
  · intro skipped p isfile fc cf
    simp [pytest_ignore_collect, hin]
  · intro items fc ctxs skipped
    simp [pytest_collection_modifyitems, hin]
  · intro st
    simp [pytest_report_collectionfinish, hin]

/-- Witness for C9 at a concrete inactive configuration. -/
theorem c9_witness :
    pytest_ignore_collect ⟨none, some "baseline.db", 0⟩ 0 ("a.py".toList) true ∅ ∅ = (none, 0) ∧
    pytest_collection_modifyitems ⟨none, some "baseline.db", 0⟩ [⟨"t.py::tx".toList⟩] ∅ ∅ 0 =
      ([⟨"t.py::tx".toList⟩], [], none) ∧
    pytest_report_collectionfinish ⟨none, some "baseline.db", 0⟩ none = none := by
  have h := c9_inactive_passthrough ⟨none, some "baseline.db", 0⟩ (by decide)
  exact ⟨h.1 0 ("a.py".toList) true ∅ ∅, h.2.1 [⟨"t.py::tx".toList⟩] ∅ ∅ 0, h.2.2 none⟩

/-- C5: evaluating the status construction at the failing input.  With one
kept item the code stores the plural line 1 tests cover the changed lines,
the singular noun appears exactly when zero items are kept, and the line is
emitted under a run-last-failure prefix; the skipped-files suffix alone obeys
the claimed singular and plural agreement. -/
theorem c5_status_string_eval :
    pytest_collection_modifyitems ⟨some "changes.diff", some "baseline.db", 0⟩
        [⟨"t.py::tx".toList⟩] ∅ {"t.py::tx".toList} 0 =
      ([⟨"t.py::tx".toList⟩], [], some "1 tests cover the changed lines (0 deselected)") ∧
    pytest_report_collectionfinish ⟨some "changes.diff", some "baseline.db", 0⟩
        (some "1 tests cover the changed lines (0 deselected)") =
      some "run-last-failure: 1 tests cover the changed lines (0 deselected)" ∧
    report_status 0 2 0 = "0 test cover the changed lines (2 deselected)" ∧
    report_status 3 1 1 = "3 tests cover the changed lines (1 deselected) (skipped 1 file)" ∧
    report_status 2 0 5 = "2 tests cover the changed lines (0 deselected) (skipped 5 files)" := by
  refine ⟨?_, ?_, ?_, ?_, ?_⟩ <;> decide

/-- Membership in the integer range list. -/
theorem mem_pyrange (a b x : Int) : x ∈ pyrange a b ↔ a ≤ x ∧ x < b := by
  unfold pyrange
  simp only [List.mem_map, List.mem_range]
  constructor
  · rintro ⟨i, hi, rfl⟩
    omega
  · rintro ⟨h1, h2⟩
    exact ⟨(x - a).toNat, by omega, by omega⟩

/-- A hunk's padded line list holds exactly the inclusive range from source
start minus 1 to source start plus source length. -/
theorem mem_hunk_lines (h : Hunk) (x : Int) :
    x ∈ hunk_lines h ↔
      (h.source_start : Int) - 1 ≤ x ∧ x ≤ (h.source_start : Int) + h.source_length := by
  unfold hunk_lines
  rw [mem_pyrange]
  omega

/-- Membership in the inner hunk fold of source_lines_changed. -/
theorem mem_foldl_append_hunks (hs : List Hunk) (acc : List Int) (x : Int) :
    x ∈ hs.foldl (fun s2 h => s2 ++ hunk_lines h) acc ↔ x ∈ acc ∨ ∃ h ∈ hs, x ∈ hunk_lines h := by
  induction hs generalizing acc with
  | nil => simp
  | cons h t ih =>
    rw [List.foldl_cons, ih]
    simp only [List.mem_append, List.mem_cons]
    constructor
    · rintro (⟨hx | hx⟩ | ⟨h2, h2t, hx⟩)
      · exact Or.inl hx
      · exact Or.inr ⟨h, Or.inl rfl, hx⟩
      · exact Or.inr ⟨h2, Or.inr h2t, hx⟩
    · rintro (hx | ⟨h2, rfl | h2t, hx⟩)
      · exact Or.inl (Or.inl hx)
      · exact Or.inl (Or.inr hx)
      · exact Or.inr ⟨h2, h2t, hx⟩

/-- Membership in the outer file fold of source_lines_changed. -/
theorem mem_foldl_append_files (l : List DiffFile) (acc : List Int) (x : Int) :
    x ∈ l.foldl (fun s f => f.hunks.foldl (fun s2 h => s2 ++ hunk_lines h) s) acc ↔
      x ∈ acc ∨ ∃ f ∈ l, ∃ h ∈ f.hunks, x ∈ hunk_lines h := by
  induction l generalizing acc with
  | nil => simp
  | cons f t ih =>
    rw [List.foldl_cons, ih, mem_foldl_append_hunks]
    simp only [List.mem_cons]
    constructor
    · rintro (⟨hx | hx⟩ | ⟨f2, hf2, hx⟩)
      · exact Or.inl hx
      · exact Or.inr ⟨f, Or.inl rfl, hx⟩
      · exact Or.inr ⟨f2, Or.inr hf2, hx⟩
    · rintro (hx | ⟨f2, rfl | hf2, hx⟩)
      · exact Or.inl (Or.inl hx)
      · exact Or.inl (Or.inr hx)
      · exact Or.inr ⟨f2, hf2, hx⟩

/-- A line belongs to the changed-line set of path p exactly when some hunk
of some diff entry with that path covers it. -/
theorem mem_source_lines_changed (diff : Diff) (p : Str) (x : Int) :
    x ∈ source_lines_changed diff p ↔
      ∃ f ∈ diff, f.path = p ∧ ∃ h ∈ f.hunks, x ∈ hunk_lines h := by
  unfold source_lines_changed
  rw [mem_foldl_append_files]
  simp only [List.not_mem_nil, false_or, List.mem_filter, beq_iff_eq]
  constructor
  · rintro ⟨f, ⟨hf, hp⟩, hx⟩
    exact ⟨f, hf, hp, hx⟩
  · rintro ⟨f, hf, hp, hx⟩
    exact ⟨f, ⟨hf, hp⟩, hx⟩

/-- C3: every hunk with source start S and length L contributes exactly the
padded inclusive range from S minus 1 to S plus L: all of it is in the
changed-line set of its file, while S minus 2 and S plus L plus 1 lie outside
the hunk's own range and can only enter the set through some other covering
hunk of the same file. -/
theorem c3_hunk_padding (diff : Diff) (f : DiffFile) (h : Hunk)
    (hf : f ∈ diff) (hh : h ∈ f.hunks) :
    (∀ x : Int, (h.source_start : Int) - 1 ≤ x → x ≤ (h.source_start : Int) + h.source_length →
      x ∈ source_lines_changed diff f.path) ∧
    ((h.source_start : Int) - 2 ∉ hunk_lines h) ∧
    ((h.source_start : Int) + h.source_length + 1 ∉ hunk_lines h) ∧
    ((h.source_start : Int) - 2 ∈ source_lines_changed diff f.path →
      ∃ f2 ∈ diff, f2.path = f.path ∧ ∃ h2 ∈ f2.hunks, h2 ≠ h ∧
        (h.source_start : Int) - 2 ∈ hunk_lines h2) ∧
    ((h.source_start : Int) + h.source_length + 1 ∈ source_lines_changed diff f.path →
      ∃ f2 ∈ diff, f2.path = f.path ∧ ∃ h2 ∈ f2.hunks, h2 ≠ h ∧
        (h.source_start : Int) + h.source_length + 1 ∈ hunk_lines h2) := by
  have hlow : (h.source_start : Int) - 2 ∉ hunk_lines h := by
    rw [mem_hunk_lines]
    omega
  have hhigh : (h.source_start : Int) + h.source_length + 1 ∉ hunk_lines h := by
    rw [mem_hunk_lines]
    omega
  refine ⟨?_, hlow, hhigh, ?_, ?_⟩
  · intro x h1 h2
    exact (mem_source_lines_changed diff f.path x).mpr
      ⟨f, hf, rfl, h, hh, (mem_hunk_lines h x).mpr ⟨h1, h2⟩⟩
  · intro hx
    obtain ⟨f2, hf2, hp, h2, hh2, hr⟩ := (mem_source_lines_changed diff f.path _).mp hx
    refine ⟨f2, hf2, hp, h2, hh2, ?_, hr⟩
    rintro rfl
    exact hlow hr
  · intro hx
    obtain ⟨f2, hf2, hp, h2, hh2, hr⟩ := (mem_source_lines_changed diff f.path _).mp hx
    refine ⟨f2, hf2, hp, h2, hh2, ?_, hr⟩
    rintro rfl
    exact hhigh hr

/-- Witness for C3 on a one-hunk diff with source start 5 and length 2. -/
theorem c3_witness :
    (6 : Int) ∈ source_lines_changed [⟨"a.py".toList, [⟨5, 2⟩]⟩] ("a.py".toList) ∧
    (3 : Int) ∉ hunk_lines ⟨5, 2⟩ := by
  have h := c3_hunk_padding [⟨"a.py".toList, [⟨5, 2⟩]⟩] ⟨"a.py".toList, [⟨5, 2⟩]⟩ ⟨5, 2⟩
    (by decide) (by decide)
  exact ⟨h.1 6 (by decide) (by decide), h.2.1⟩

/-- Membership in the first-occurrence deduplication. -/
theorem mem_dedup_first_foldl (l : List Str) (acc : List Str) (x : Str) :
    x ∈ l.foldl (fun acc x => if acc.contains x then acc else acc ++ [x]) acc ↔
      x ∈ acc ∨ x ∈ l := by
  induction l generalizing acc with
  | nil => simp
  | cons a t ih =>
    rw [List.foldl_cons, ih]
    split_ifs with hc
    · have ha : a ∈ acc := by
        simpa using hc
      rw [List.mem_cons]
      constructor
      · rintro (h1 | h2)
        · exact Or.inl h1
        · exact Or.inr (Or.inr h2)
      · rintro (h1 | rfl | h2)
        · exact Or.inl h1
        · exact Or.inl ha
        · exact Or.inr h2
    · rw [List.mem_append, List.mem_singleton, List.mem_cons]
      tauto

/-- Membership in dedup_first is membership in the underlying list. -/
theorem mem_dedup_first (l : List Str) (x : Str) : x ∈ dedup_first l ↔ x ∈ l := by
  unfold dedup_first
  rw [mem_dedup_first_foldl]
  simp

/-- A path is staged exactly when some diff entry with that path has at least
one hunk. -/
theorem mem_staged_paths (diff : Diff) (p : Str) :
    p ∈ staged_paths diff ↔ ∃ f ∈ diff, f.path = p ∧ f.hunks ≠ [] := by
  unfold staged_paths
  rw [mem_dedup_first]
  simp only [List.mem_map, List.mem_filter]
  constructor
  · rintro ⟨f, ⟨hf, hne⟩, rfl⟩
    refine ⟨f, hf, rfl, ?_⟩
    intro he
    rw [he] at hne
    simp [List.isEmpty] at hne
  · rintro ⟨f, hf, rfl, hne⟩
    refine ⟨f, ⟨hf, ?_⟩, rfl⟩
    cases hk : f.hunks with
    | nil => exact absurd hk hne
    | cons h t => simp [List.isEmpty]

/-- C8: every padded hunk range has source length plus 2 lines, and every
staged path carries a non-empty changed-line set, so the encoder is never
reached with an empty line set. -/
theorem c8_staged_sets_nonempty :
    (∀ h : Hunk, (hunk_lines h).length = h.source_length + 2) ∧
    (∀ (diff : Diff) (p : Str), p ∈ staged_paths diff →
      source_lines_changed diff p ≠ []) := by
  constructor
  · intro h
    simp only [hunk_lines, pyrange, List.length_map, List.length_range]
    omega
  · intro diff p hp
    obtain ⟨f, hf, rfl, hne⟩ := (mem_staged_paths diff p).mp hp
    cases hk : f.hunks with
    | nil => exact absurd hk hne
    | cons h t =>
      have hmem : ((h.source_start : Int) - 1) ∈ source_lines_changed diff f.path := by
        refine (mem_source_lines_changed diff f.path _).mpr ⟨f, hf, rfl, h, ?_, ?_⟩
        · rw [hk]; exact List.mem_cons_self h t
        · rw [mem_hunk_lines]
          omega
      exact List.ne_nil_of_mem hmem

/-- Witness for C8 on a one-hunk diff with source length zero. -/
theorem c8_witness :
    (hunk_lines ⟨5, 2⟩).length = 4 ∧
    source_lines_changed [⟨"b.py".toList, [⟨1, 0⟩]⟩] ("b.py".toList) ≠ [] := by
  refine ⟨c8_staged_sets_nonempty.1 ⟨5, 2⟩, c8_staged_sets_nonempty.2 _ _ ?_⟩
  decide

/-- Every member of a list is bounded by the running foldl maximum. -/
theorem foldl_max_bounds (l : List Nat) (a : Nat) :
    a ≤ l.foldl max a ∧ ∀ n ∈ l, n ≤ l.foldl max a := by
  induction l generalizing a with
  | nil => simp
  | cons b t ih =>
    rw [List.foldl_cons]
    refine ⟨le_trans (le_max_left a b) (ih (max a b)).1, ?_⟩
    intro n hn
    rcases List.mem_cons.mp hn with rfl | hn
    · exact le_trans (le_max_right a n) (ih (max a n)).1
    · exact (ih (max a b)).2 n hn

/-- Every member of a list is at most its max_list. -/
theorem mem_le_max_list (l : List Nat) (n : Nat) (hn : n ∈ l) : n ≤ max_list l :=
  (foldl_max_bounds l 0).2 n hn

/-- The bit-setting fold preserves the byte-array length. -/
theorem length_foldl_set_bit (nums : List Nat) (b : List Nat) :
    (nums.foldl set_bit b).length = b.length := by
  induction nums generalizing b with
  | nil => rfl
  | cons n t ih =>
    rw [List.foldl_cons, ih]
    simp [set_bit]

/-- The bitmask length is the byte index of the maximum line plus one. -/
theorem set_to_bitmask_length (nums : List Nat) :
    (set_to_bitmask nums).length = max_list nums / 8 + 1 := by
  unfold set_to_bitmask
  rw [length_foldl_set_bit, List.length_replicate]

/-- Each byte produced by the bit-setting fold is the original byte or-ed
with the contribution mask of the processed numbers. -/
theorem getD_foldl_set_bit (nums : List Nat) (b : List Nat) (k : Nat)
    (hlen : ∀ n ∈ nums, n / 8 < b.length) :
    (nums.foldl set_bit b).getD k 0 = b.getD k 0 ||| mask_at nums k := by
  induction nums generalizing b with
  | nil => simp [mask_at]
  | cons n t ih =>
    rw [List.foldl_cons]
    rw [ih (set_bit b n) (fun m hm => by
      have hsb : (set_bit b n).length = b.length := by simp [set_bit]
      rw [hsb]
      exact hlen m (List.mem_cons_of_mem n hm))]
    have hn8 : n / 8 < b.length := hlen n (List.mem_cons_self n t)
    have hmask : mask_at (n :: t) k =
        if n / 8 = k then 1 <<< (n % 8) ||| mask_at t k else mask_at t k := rfl
    rw [hmask]
    by_cases hk : n / 8 = k
    · rw [if_pos hk]
      have hset : (set_bit b n).getD k 0 = b.getD k 0 ||| 1 <<< (n % 8) := by
        unfold set_bit
        rw [← hk, List.getD_eq_getElem?_getD, List.getElem?_set_self hn8,
          List.getD_eq_getElem?_getD]
        rfl
      rw [hset, Nat.lor_assoc]
    · rw [if_neg hk]
      have hset : (set_bit b n).getD k 0 = b.getD k 0 := by
        unfold set_bit
        rw [List.getD_eq_getElem?_getD, List.getElem?_set_ne hk, ← List.getD_eq_getElem?_getD]
      rw [hset]

/-- Bit j of the contribution mask at byte k is set exactly for a member
with that byte index and bit offset. -/
theorem testBit_mask_at (nums : List Nat) (k j : Nat) :
    Nat.testBit (mask_at nums k) j = true ↔ ∃ n ∈ nums, n / 8 = k ∧ n % 8 = j := by
  induction nums with
  | nil => simp [mask_at]
  | cons n t ih =>
    have hstep : mask_at (n :: t) k =
        if n / 8 = k then 1 <<< (n % 8) ||| mask_at t k else mask_at t k := rfl
    rw [hstep]
    by_cases hk : n / 8 = k
    · rw [if_pos hk, Nat.one_shiftLeft, Nat.testBit_lor, Nat.testBit_two_pow]
      simp only [Bool.or_eq_true, decide_eq_true_eq, List.mem_cons]
      rw [ih]
      constructor
      · rintro (rfl | ⟨m, hm, hmk, hmj⟩)
        · exact ⟨n, Or.inl rfl, hk, rfl⟩
        · exact ⟨m, Or.inr hm, hmk, hmj⟩
      · rintro ⟨m, rfl | hm, hmk, hmj⟩
        · exact Or.inl hmj
        · exact Or.inr ⟨m, hm, hmk, hmj⟩
    · rw [if_neg hk, ih]
      simp only [List.mem_cons]
      constructor
      · rintro ⟨m, hm, hmk, hmj⟩
        exact ⟨m, Or.inr hm, hmk, hmj⟩
      · rintro ⟨m, rfl | hm, hmk, hmj⟩
        · exact absurd hmk hk
        · exact ⟨m, hm, hmk, hmj⟩

/-- The contribution mask fits in one byte. -/
theorem mask_at_lt_256 (nums : List Nat) (k : Nat) : mask_at nums k < 256 := by
  induction nums with
  | nil =>
    show (0 : Nat) < 256
    omega
  | cons n t ih =>
    have hstep : mask_at (n :: t) k =
        if n / 8 = k then 1 <<< (n % 8) ||| mask_at t k else mask_at t k := rfl
    rw [hstep]
    by_cases hk : n / 8 = k
    · rw [if_pos hk]
      have h1 : 1 <<< (n % 8) < 256 := by
        rw [Nat.one_shiftLeft]
        calc 2 ^ (n % 8) < 2 ^ 8 := Nat.pow_lt_pow_right (by decide) (by omega)
        _ = 256 := by decide
      exact Nat.or_lt_two_pow (n := 8) h1 ih
    · rw [if_neg hk]
      exact ih

/-- The byte of the bitmask at index k equals the contribution mask at k,
bytes past the end read as zero. -/
theorem set_to_bitmask_getD (nums : List Nat) (k : Nat) :
    (set_to_bitmask nums).getD k 0 = mask_at nums k := by
  unfold set_to_bitmask
  rw [getD_foldl_set_bit]
  · rw [List.getD_eq_getElem?_getD, List.getElem?_getD_replicate_default_eq]
    exact Nat.zero_or _
  · intro n hn
    rw [List.length_replicate]
    have := mem_le_max_list nums n hn
    omega

/-- Bit i mod 8 of byte i div 8 of the bitmask is set exactly for members of
nums. -/
theorem set_to_bitmask_testBit (nums : List Nat) (i : Nat) :
    Nat.testBit ((set_to_bitmask nums).getD (i / 8) 0) (i % 8) = true ↔ i ∈ nums := by
  rw [set_to_bitmask_getD, testBit_mask_at]
  constructor
  · rintro ⟨n, hn, hk, hj⟩
    have hni : n = i := by omega
    rwa [← hni]
  · intro hi
    exact ⟨i, hi, rfl, rfl⟩

/-- C7: on a non-empty list of line numbers the bitmask is a byte string of
exactly max div 8 plus 1 bytes, and bit i mod 8 of byte i div 8, little
endian within each byte, is set exactly when i is a member. -/
theorem c7_bitmask_layout (nums : List Nat) (_hne : nums ≠ []) :
    (set_to_bitmask nums).length = max_list nums / 8 + 1 ∧
    (∀ b ∈ set_to_bitmask nums, b < 256) ∧
    (∀ i : Nat, Nat.testBit ((set_to_bitmask nums).getD (i / 8) 0) (i % 8) = true ↔ i ∈ nums) := by
  refine ⟨set_to_bitmask_length nums, ?_, fun i => set_to_bitmask_testBit nums i⟩
  intro b hb
  obtain ⟨k, hk, hkb⟩ := List.mem_iff_getElem.mp hb
  have hgd : (set_to_bitmask nums).getD k 0 = b := by
    rw [List.getD_eq_getElem _ _ hk]
    exact hkb
  rw [← hgd, set_to_bitmask_getD]
  exact mask_at_lt_256 nums k

/-- Witness for C7 on the singleton line set 9: two bytes, bit 1 of byte 1
set, bit 0 of byte 1 clear. -/
theorem c7_witness :
    (set_to_bitmask [9]).length = 2 ∧
    Nat.testBit ((set_to_bitmask [9]).getD (9 / 8) 0) (9 % 8) = true ∧
    ¬ Nat.testBit ((set_to_bitmask [9]).getD (8 / 8) 0) (8 % 8) = true := by
  have h := c7_bitmask_layout [9] (by decide)
  exact ⟨h.1, (h.2.2 9).mpr (by decide), fun hc => absurd ((h.2.2 8).mp hc) (by decide)⟩

/-- The byte-pair scan of any_intersection finds a common bit exactly when
some byte position carries one, positions past either end reading as zero. -/
theorem zip_longest0_any_iff (m1 m2 : List Nat) :
    ((zip_longest0 m1 m2).any (fun p => p.1 &&& p.2 != 0)) = true ↔
      ∃ k, m1.getD k 0 &&& m2.getD k 0 ≠ 0 := by
  induction m1 generalizing m2 with
  | nil =>
    show ((m2.map (fun b => ((0 : Nat), b))).any (fun p => p.1 &&& p.2 != 0)) = true ↔ _
    simp only [List.any_eq_true, List.getD_nil, Nat.zero_and]
    constructor
    · rintro ⟨x, hx, hb⟩
      obtain ⟨b, hbm, rfl⟩ := List.mem_map.mp hx
      simp [Nat.zero_and] at hb
    · rintro ⟨k, hk⟩
      exact absurd rfl hk
  | cons a xs ih =>
    cases m2 with
    | nil =>
      show (((a, (0 : Nat)) :: zip_longest0 xs []).any (fun p => p.1 &&& p.2 != 0)) = true ↔ _
      rw [List.any_cons, Bool.or_eq_true, ih []]
      constructor
      · rintro (h | ⟨k, hk⟩)
        · simp [Nat.and_zero] at h
        · exact absurd (by simp [List.getD_nil, Nat.and_zero]) hk
      · rintro ⟨k, hk⟩
        exact absurd (by simp [List.getD_nil, Nat.and_zero]) hk
    | cons b bs =>
      show (((a, b) :: zip_longest0 xs bs).any (fun p => p.1 &&& p.2 != 0)) = true ↔ _
      rw [List.any_cons, Bool.or_eq_true, ih bs]
      constructor
      · rintro (h | ⟨k, hk⟩)
        · refine ⟨0, ?_⟩
          simpa [List.getD_cons_zero] using h
        · refine ⟨k + 1, ?_⟩
          simpa [List.getD_cons_succ] using hk
      · rintro ⟨k, hk⟩
        cases k with
        | zero => exact Or.inl (by simpa [List.getD_cons_zero] using hk)
        | succ k => exact Or.inr ⟨k, by simpa [List.getD_cons_succ] using hk⟩

/-- The SQL predicate value is 1 exactly when some byte position carries a
common bit. -/
theorem any_intersection_eq_one (m1 m2 : List Nat) :
    any_intersection m1 m2 = 1 ↔ ∃ k, m1.getD k 0 &&& m2.getD k 0 ≠ 0 := by
  unfold any_intersection
  rw [← zip_longest0_any_iff m1 m2]
  split_ifs with h
  · simp [h]
  · simp [h]

/-- A bitwise and of naturals is nonzero exactly when the operands share a
set bit. -/
theorem land_ne_zero_iff (x y : Nat) :
    x &&& y ≠ 0 ↔ ∃ j, Nat.testBit x j = true ∧ Nat.testBit y j = true := by
  constructor
  · intro h
    obtain ⟨j, hj, _⟩ := Nat.exists_most_significant_bit h
    rw [Nat.testBit_land] at hj
    exact ⟨j, (Bool.and_eq_true _ _).mp hj⟩
  · rintro ⟨j, hx, hy⟩ h0
    have ht := Nat.testBit_land x y j
    rw [h0, Nat.zero_testBit, hx, hy] at ht
    simp at ht

/-- C2: the intersection predicate on two encoded masks is 1 exactly when
the encoded sets share an element, whatever the byte lengths of the two
masks. -/
theorem c2_intersection_iff (A B : List Nat) (_hA : A ≠ []) (_hB : B ≠ []) :
    any_intersection (set_to_bitmask A) (set_to_bitmask B) = 1 ↔ ∃ x, x ∈ A ∧ x ∈ B := by
  rw [any_intersection_eq_one]
  constructor
  · rintro ⟨k, hk⟩
    obtain ⟨j, hx, hy⟩ := (land_ne_zero_iff _ _).mp hk
    rw [set_to_bitmask_getD] at hx hy
    obtain ⟨a, ha, hak, haj⟩ := (testBit_mask_at A k j).mp hx
    obtain ⟨b, hb, hbk, hbj⟩ := (testBit_mask_at B k j).mp hy
    have hab : a = b := by omega
    exact ⟨a, ha, by rwa [hab]⟩
  · rintro ⟨x, hxA, hxB⟩
    refine ⟨x / 8, (land_ne_zero_iff _ _).mpr ⟨x % 8, ?_, ?_⟩⟩
    · exact (set_to_bitmask_testBit A x).mpr hxA
    · exact (set_to_bitmask_testBit B x).mpr hxB

/-- Witness for C2 on masks of unequal byte length sharing the element 3. -/
theorem c2_witness :
    any_intersection (set_to_bitmask [3]) (set_to_bitmask [3, 100]) = 1 :=
  (c2_intersection_iff [3] [3, 100] (by decide) (by decide)).mpr ⟨3, by decide, by decide⟩

/-- C1: evaluation at the failing input.  The staged diff a.py genuinely
overlaps the baseline bitmap of /repo/a.py, and the common prefix computed
from the baseline file paths would bridge the relative path to the absolute
one, yet the resolution yields no context: the join compares the staged path
as absolutized against the current working directory /work, and the computed
prefix is never applied. -/
theorem c1_prefix_never_applied :
    (who_tested_what c1_input).contexts = ∅ ∧
    any_intersection
      (set_to_bitmask (lines_as_nats (source_lines_changed c1_diff ("a.py".toList)))) [6] = 1 ∧
    wtw_common_dir (dedup_first (c1_db.file.map (fun f => f.path))) = "/repo".toList ∧
    path_join ("/repo".toList) ("a.py".toList) = "/repo/a.py".toList ∧
    os_path_abspath c1_input.cwd ("a.py".toList) ≠ "/repo/a.py".toList ∧
    (who_tested_what ⟨"/repo".toList, "/repo".toList, c1_diff, c1_db⟩).contexts =
      {"t.py::tx".toList} := by
  refine ⟨?_, ?_, ?_, ?_, ?_, ?_⟩ <;> decide

/-- Characterization of a successful first-occurrence search: the index
found carries the separator and no smaller index does. -/
theorem first_occ_some (sep : Str) :
    ∀ (s : Str) (k : Nat), first_occ sep s = some k →
      sub_at sep s k = true ∧ ∀ j, j < k → sub_at sep s j = false := by
  intro s
  induction s with
  | nil =>
    intro k h
    unfold first_occ at h
    by_cases hc : sep.isPrefixOf [] = true
    · rw [if_pos hc] at h
      cases h
      exact ⟨hc, fun j hj => absurd hj (Nat.not_lt_zero j)⟩
    · rw [if_neg hc] at h
      cases h
  | cons c t ih =>
    intro k h
    unfold first_occ at h
    by_cases hc : sep.isPrefixOf (c :: t) = true
    · rw [if_pos hc] at h
      cases h
      exact ⟨hc, fun j hj => absurd hj (Nat.not_lt_zero j)⟩
    · rw [if_neg hc] at h
      cases hft : first_occ sep t with
      | none =>
        rw [hft] at h
        cases h
      | some k2 =>
        rw [hft] at h
        have hk : k = k2 + 1 := by
          cases h
          rfl
        subst hk
        obtain ⟨h1, h2⟩ := ih k2 hft
        refine ⟨h1, ?_⟩
        intro j hj
        cases j with
        | zero =>
          show sep.isPrefixOf ((c :: t).drop 0) = false
          rw [List.drop_zero]
          exact Bool.eq_false_iff.mpr hc
        | succ j2 =>
          show sep.isPrefixOf ((c :: t).drop (j2 + 1)) = false
          exact h2 j2 (by omega)

/-- Characterization of a failed first-occurrence search: the separator
occurs nowhere. -/
theorem first_occ_none (sep : Str) :
    ∀ s : Str, first_occ sep s = none → ∀ j, sub_at sep s j = false := by
  intro s
  induction s with
  | nil =>
    intro h j
    unfold first_occ at h
    by_cases hc : sep.isPrefixOf [] = true
    · rw [if_pos hc] at h
      cases h
    · rw [if_neg hc] at h
      show sep.isPrefixOf ([].drop j) = false
      rw [List.drop_nil]
      exact Bool.eq_false_iff.mpr hc
  | cons c t ih =>
    intro h j
    unfold first_occ at h
    by_cases hc : sep.isPrefixOf (c :: t) = true
    · rw [if_pos hc] at h
      cases h
    · rw [if_neg hc] at h
      cases hft : first_occ sep t with
      | some k2 =>
        rw [hft] at h
        cases h
      | none =>
        cases j with
        | zero =>
          show sep.isPrefixOf ((c :: t).drop 0) = false
          rw [List.drop_zero]
          exact Bool.eq_false_iff.mpr hc
        | succ j2 =>
          show sep.isPrefixOf ((c :: t).drop (j2 + 1)) = false
          exact ih hft j2

/-- The partition head satisfies the first-occurrence split property. -/
theorem partition_before_splits (sep s : Str) :
    splits_at_first sep s (partition_before sep s) := by
  unfold partition_before splits_at_first
  cases hfo : first_occ sep s with
  | some k =>
    left
    obtain ⟨h1, h2⟩ := first_occ_some sep s k hfo
    exact ⟨k, h1, h2, rfl⟩
  | none =>
    right
    exact ⟨first_occ_none sep s hfo, rfl⟩

/-- The first-occurrence split property determines the partition head. -/
theorem splits_at_first_eq (sep s out : Str) (h : splits_at_first sep s out) :
    out = partition_before sep s := by
  unfold partition_before
  cases hfo : first_occ sep s with
  | some k =>
    obtain ⟨h1, h2⟩ := first_occ_some sep s k hfo
    rcases h with ⟨k2, hk2, hmin, rfl⟩ | ⟨hnone, rfl⟩
    · have hkk : k2 = k := by
        by_contra hne
        rcases Nat.lt_or_ge k2 k with hlt | hge
        · rw [h2 k2 hlt] at hk2
          cases hk2
        · have hlt2 : k < k2 := by omega
          rw [hmin k hlt2] at h1
          cases h1
      rw [hkk]
    · rw [hnone k] at h1
      cases h1
  | none =>
    have hspec := first_occ_none sep s hfo
    rcases h with ⟨k2, hk2, hmin, rfl⟩ | ⟨hnone, rfl⟩
    · rw [hspec k2] at hk2
      cases hk2
    · rfl

/-- The context_files component of the resolution, unfolded. -/
theorem who_tested_what_context_files (inp : WTWInput) :
    (who_tested_what inp).context_files =
      ((resolved_rows inp.db (staged_rows inp.cwd inp.diff)).map
        (fun c => path_join inp.rootdir (specifier_file (context_specifier c)))).toFinset := rfl

/-- C10: when the feature is active an item is kept exactly when its full
node id is a known context specifier or the part of its node id before the
FIRST double-colon occurrence is a changed file, and every context file is
the root-joined part of a matched specifier before its FIRST double-colon
occurrence. -/
theorem c10_first_separator_split :
    (∀ (cfg : Config) (items : List Item) (fc ctxs : Finset Str) (skipped : Nat),
      wtw_active cfg = true → ∀ it : Item,
        it ∈ (pytest_collection_modifyitems cfg items fc ctxs skipped).1 ↔
          it ∈ items ∧ (it.nodeid ∈ ctxs ∨
            ∃ out, splits_at_first colon_sep it.nodeid out ∧ out ∈ fc)) ∧
    (∀ (inp : WTWInput) (q : Str),
      q ∈ (who_tested_what inp).context_files ↔
        ∃ c ∈ resolved_rows inp.db (staged_rows inp.cwd inp.diff),
          ∃ out, splits_at_first colon_sep (context_specifier c) out ∧
            q = path_join inp.rootdir out) := by
  constructor
  · intro cfg items fc ctxs skipped hact it
    simp only [pytest_collection_modifyitems, hact, if_true]
    rw [List.mem_filter]
    unfold item_selected
    simp only [Bool.or_eq_true, decide_eq_true_eq]
    constructor
    · rintro ⟨hit, hsel | hsel⟩
      · exact ⟨hit, Or.inl hsel⟩
      · exact ⟨hit, Or.inr ⟨partition_before colon_sep it.nodeid,
          partition_before_splits _ _, hsel⟩⟩
    · rintro ⟨hit, hsel | ⟨out, hsp, hout⟩⟩
      · exact ⟨hit, Or.inl hsel⟩
      · refine ⟨hit, Or.inr ?_⟩
        rwa [splits_at_first_eq _ _ _ hsp] at hout
  · intro inp q
    rw [who_tested_what_context_files, List.mem_toFinset]
    simp only [List.mem_map]
    constructor
    · rintro ⟨c, hc, rfl⟩
      exact ⟨c, hc, specifier_file (context_specifier c), partition_before_splits _ _, rfl⟩
    · rintro ⟨c, hc, out, hsp, rfl⟩
      refine ⟨c, hc, ?_⟩
      rw [splits_at_first_eq _ _ _ hsp]
      rfl

/-- Witness for C10 on a parametrized-style node id with two double-colon
occurrences: the item is kept through its file part before the first one. -/
theorem c10_witness :
    (⟨"tests/u.py::TestA::tm".toList⟩ : Item) ∈ (pytest_collection_modifyitems
        ⟨some "d.diff", some "b.db", 0⟩ [⟨"tests/u.py::TestA::tm".toList⟩]
        {"tests/u.py".toList} ∅ 0).1 := by
  have h := c10_first_separator_split.1 ⟨some "d.diff", some "b.db", 0⟩
    [⟨"tests/u.py::TestA::tm".toList⟩] {"tests/u.py".toList} ∅ 0 (by decide)
    ⟨"tests/u.py::TestA::tm".toList⟩
  refine h.mpr ⟨by decide, Or.inr ⟨"tests/u.py".toList, ?_, by decide⟩⟩
  left
  refine ⟨10, by decide, ?_, by decide⟩
  decide

/-- C4 counterexample: for baseline paths /foo/bar/x and /foo/barn/y the
computed common prefix is /foo, which does not end in a path separator, so
the prefix is not always separator-terminated (while it is still cut at the
directory boundary, never /foo/bar). -/
theorem c4_counterexample :
    wtw_common_dir ["/foo/bar/x".toList, "/foo/barn/y".toList] = "/foo".toList ∧
    ends_with_slash (wtw_common_dir ["/foo/bar/x".toList, "/foo/barn/y".toList]) = false := by
  constructor <;> decide

/-- The binary character-wise common prefix is a prefix of its left operand. -/
theorem lcp2_prefix_left : ∀ s t : Str, lcp2 s t <+: s := by
  intro s
  induction s with
  | nil =>
    intro t
    cases t <;> exact List.nil_prefix
  | cons c cs ih =>
    intro t
    cases t with
    | nil => exact List.nil_prefix
    | cons d ds =>
      show (if c = d then c :: lcp2 cs ds else []) <+: c :: cs
      split_ifs with hcd
      · exact List.cons_prefix_cons.mpr ⟨rfl, ih ds⟩
      · exact List.nil_prefix

/-- The binary character-wise common prefix is a prefix of its right
operand. -/
theorem lcp2_prefix_right : ∀ s t : Str, lcp2 s t <+: t := by
  intro s
  induction s with
  | nil =>
    intro t
    cases t <;> exact List.nil_prefix
  | cons c cs ih =>
    intro t
    cases t with
    | nil => exact List.nil_prefix
    | cons d ds =>
      show (if c = d then c :: lcp2 cs ds else []) <+: d :: ds
      split_ifs with hcd
      · exact List.cons_prefix_cons.mpr ⟨hcd, ih ds⟩
      · exact List.nil_prefix

/-- The folded common prefix is a prefix of the accumulator and of every
list element. -/
theorem foldl_lcp2_common : ∀ (l : List Str) (acc : Str),
    (l.foldl lcp2 acc <+: acc) ∧ ∀ p ∈ l, l.foldl lcp2 acc <+: p := by
  intro l
  induction l with
  | nil =>
    intro acc
    refine ⟨List.prefix_refl _, ?_⟩
    intro p hp
    cases hp
  | cons t ts ih =>
    intro acc
    rw [List.foldl_cons]
    obtain ⟨h1, h2⟩ := ih (lcp2 acc t)
    refine ⟨h1.trans (lcp2_prefix_left acc t), ?_⟩
    intro p hp
    rcases List.mem_cons.mp hp with rfl | hp
    · exact h1.trans (lcp2_prefix_right acc p)
    · exact h2 p hp

/-- The common prefix of a list of paths is a string prefix of each path. -/
theorem commonprefix_chars_is_common (ps : List Str) (p : Str) (hp : p ∈ ps) :
    commonprefix_chars ps <+: p := by
  cases ps with
  | nil => cases hp
  | cons q qs =>
    show qs.foldl lcp2 q <+: p
    rcases List.mem_cons.mp hp with rfl | hp
    · exact (foldl_lcp2_common qs p).1
    · exact (foldl_lcp2_common qs q).2 p hp

/-- Decomposition of the trailing-separator strip: the string is the strip
result followed by a run of separators, and the result carries no trailing
separator. -/
theorem rstrip_slash_spec (s : Str) :
    s = rstrip_slash s ++ (s.reverse.takeWhile (fun c => c = slash)).reverse ∧
    (∀ c ∈ (s.reverse.takeWhile (fun c => c = slash)).reverse, c = slash) ∧
    (∀ c, (rstrip_slash s).getLast? = some c → c ≠ slash) := by
  refine ⟨?_, ?_, ?_⟩
  · unfold rstrip_slash
    conv_lhs => rw [← List.reverse_reverse s,
      ← List.takeWhile_append_dropWhile (fun c => decide (c = slash)) s.reverse]
    rw [List.reverse_append]
  · intro c hc
    rw [List.mem_reverse] at hc
    have := List.mem_takeWhile_imp hc
    simpa using this
  · intro c hlast heq
    unfold rstrip_slash at hlast
    rw [List.getLast?_reverse] at hlast
    have hnp := List.head?_dropWhile_not (fun c => decide (c = slash)) s.reverse
    rw [hlast] at hnp
    subst heq
    simp at hnp

/-- The strip result is a prefix of its input. -/
theorem rstrip_slash_is_pref (s : Str) : rstrip_slash s <+: s :=
  ⟨(s.reverse.takeWhile (fun c => c = slash)).reverse, ((rstrip_slash_spec s).1).symm⟩

/-- A string whose characters are not all separators strips to a non-empty
string. -/
theorem rstrip_slash_ne_nil (s : Str) (h : ¬ ∀ c ∈ s, c = slash) : rstrip_slash s ≠ [] := by
  intro h0
  apply h
  intro c hcs
  have hd : s.reverse.dropWhile (fun c => decide (c = slash)) = [] := by
    have := congrArg List.reverse h0
    simpa [rstrip_slash] using this
  have := List.dropWhile_eq_nil_iff.mp hd c (List.mem_reverse.mpr hcs)
  simpa using this

/-- A last-occurrence hit is an occurrence. -/
theorem last_occ_is_occ (sep : Str) :
    ∀ (s : Str) (k : Nat), last_occ sep s = some k → sub_at sep s k = true := by
  intro s
  induction s with
  | nil =>
    intro k h
    unfold last_occ at h
    by_cases hc : sep.isPrefixOf [] = true
    · rw [if_pos hc] at h
      cases h
      exact hc
    · rw [if_neg hc] at h
      cases h
  | cons c t ih =>
    intro k h
    unfold last_occ at h
    cases hft : last_occ sep t with
    | some k2 =>
      rw [hft] at h
      have hk : k = k2 + 1 := by
        cases h
        rfl
      subst hk
      show sep.isPrefixOf ((c :: t).drop (k2 + 1)) = true
      exact ih k2 hft
    | none =>
      rw [hft] at h
      by_cases hc : sep.isPrefixOf (c :: t) = true
      · rw [if_pos hc] at h
        cases h
        exact hc
      · rw [if_neg hc] at h
        cases h

/-- A separator occurrence at index k means the character at k is the
separator. -/
theorem sub_at_slash_getElem : ∀ (s : Str) (k : Nat), sub_at [slash] s k = true →
    s[k]? = some slash := by
  intro s
  induction s with
  | nil =>
    intro k h
    unfold sub_at at h
    rw [List.drop_nil] at h
    simp [List.isPrefixOf] at h
  | cons c t ih =>
    intro k h
    cases k with
    | zero =>
      unfold sub_at at h
      rw [List.drop_zero] at h
      have hc : slash = c := by
        simpa [List.isPrefixOf] using h
      rw [List.getElem?_cons_zero, ← hc]
    | succ k2 =>
      have h2 : sub_at [slash] t k2 = true := h
      rw [List.getElem?_cons_succ]
      exact ih k2 h2

/-- The dirname result is a prefix of its input. -/
theorem posix_dirname_is_pref (p : Str) : posix_dirname p <+: p := by
  unfold posix_dirname
  split_ifs with hcond
  · exact (rstrip_slash_is_pref (dirname_head p)).trans (List.take_prefix _ _)
  · exact List.take_prefix _ _

/-- An ends-with-slash test from the absence of a trailing separator. -/
theorem ends_with_slash_false_of (r : Str) (h : ∀ c, r.getLast? = some c → c ≠ slash) :
    ends_with_slash r = false := by
  cases hl : r.getLast? with
  | none =>
    unfold ends_with_slash
    rw [hl]
  | some c =>
    unfold ends_with_slash
    rw [hl]
    simp [h c hl]

/-- When the dirname result ends in a separator it is a pure separator
run. -/
theorem posix_dirname_all_slash_of_ends (p : Str)
    (h : ends_with_slash (posix_dirname p) = true) :
    ∀ c ∈ posix_dirname p, c = slash := by
  unfold posix_dirname at h ⊢
  split_ifs at h ⊢ with hcond
  · exfalso
    have hf : ends_with_slash (rstrip_slash (dirname_head p)) = false :=
      ends_with_slash_false_of _ (rstrip_slash_spec (dirname_head p)).2.2
    rw [h] at hf
    cases hf
  · intro c hc
    by_cases hnil : dirname_head p = []
    · rw [hnil] at hc
      cases hc
    · have hall : (dirname_head p).all (fun c => c = slash) = true := by
        by_contra hno
        exact hcond ⟨hnil, hno⟩
      have := List.all_eq_true.mp hall c hc
      simpa using this

/-- Directory-name granularity of dirname: the result is empty, a pure
separator run, or cut exactly before a separator of the input with no
trailing separator of its own. -/
theorem posix_dirname_boundary (p : Str) :
    posix_dirname p = [] ∨ (∀ c ∈ posix_dirname p, c = slash) ∨
      ((posix_dirname p).length < p.length ∧
        p[(posix_dirname p).length]? = some slash ∧
        ends_with_slash (posix_dirname p) = false) := by
  unfold posix_dirname
  split_ifs with hcond
  · obtain ⟨hs_eq, hs_all, hs_last⟩ := rstrip_slash_spec (dirname_head p)
    cases hlo : last_occ [slash] p with
    | none =>
      exfalso
      apply hcond.1
      unfold dirname_head dirname_idx
      rw [hlo]
      rfl
    | some k =>
      have hocc : sub_at [slash] p k = true := last_occ_is_occ [slash] p k hlo
      have hpk : p[k]? = some slash := sub_at_slash_getElem p k hocc
      have hklen : k < p.length := by
        by_contra hge
        rw [List.getElem?_eq_none (by omega)] at hpk
        cases hpk
      have hidx : dirname_idx p = k + 1 := by
        unfold dirname_idx
        rw [hlo]
      have hlen_head : (dirname_head p).length = k + 1 := by
        unfold dirname_head
        rw [hidx, List.length_take]
        omega
      have hlast_head : (dirname_head p).getLast? = some slash := by
        rw [List.getLast?_eq_getElem?, hlen_head]
        have hsimp : k + 1 - 1 = k := by omega
        rw [hsimp]
        unfold dirname_head
        rw [hidx, List.getElem?_take_of_lt (by omega)]
        exact hpk
      have hrun_ne : ((dirname_head p).reverse.takeWhile (fun c => c = slash)).reverse ≠ [] := by
        intro h0
        rw [h0, List.append_nil] at hs_eq
        rw [hs_eq] at hlast_head
        exact hs_last slash hlast_head rfl
      have hlen_r : (rstrip_slash (dirname_head p)).length < (dirname_head p).length := by
        have hlc := congrArg List.length hs_eq
        rw [List.length_append] at hlc
        have hrpos : 0 <
            ((dirname_head p).reverse.takeWhile (fun c => c = slash)).reverse.length :=
          List.length_pos.mpr hrun_ne
        omega
      refine Or.inr (Or.inr ⟨by omega, ?_, ends_with_slash_false_of _ hs_last⟩)
      have h1 : p[(rstrip_slash (dirname_head p)).length]? =
          (dirname_head p)[(rstrip_slash (dirname_head p)).length]? := by
        obtain ⟨tail, htail⟩ := (List.take_prefix (dirname_idx p) p :
          dirname_head p <+: p)
        have htail2 : dirname_head p ++ tail = p := htail
        have happ := @List.getElem?_append_left Char (dirname_head p) tail
          ((rstrip_slash (dirname_head p)).length) (by omega)
        rw [htail2] at happ
        exact happ
      have h2 : (dirname_head p)[(rstrip_slash (dirname_head p)).length]? =
          ((dirname_head p).reverse.takeWhile (fun c => c = slash)).reverse[0]? := by
        have happ := @List.getElem?_append_right Char (rstrip_slash (dirname_head p))
          (((dirname_head p).reverse.takeWhile (fun c => c = slash)).reverse)
          ((rstrip_slash (dirname_head p)).length) (le_refl _)
        rw [Nat.sub_self, ← hs_eq] at happ
        exact happ
      have h3 : ((dirname_head p).reverse.takeWhile (fun c => c = slash)).reverse[0]? =
          some slash := by
        cases hrun : ((dirname_head p).reverse.takeWhile (fun c => c = slash)).reverse with
        | nil => exact absurd hrun hrun_ne
        | cons c cs =>
          rw [List.getElem?_cons_zero]
          have hcs : c = slash := hs_all c (by rw [hrun]; exact List.mem_cons_self c cs)
          rw [hcs]
      rw [h1, h2, h3]
  · by_cases hnil : dirname_head p = []
    · exact Or.inl hnil
    · have hall : (dirname_head p).all (fun c => c = slash) = true := by
        by_contra hno
        exact hcond ⟨hnil, hno⟩
      refine Or.inr (Or.inl ?_)
      intro c hc
      have := List.all_eq_true.mp hall c hc
      simpa using this

/-- C4 amended: the computed prefix is a string prefix of the character-wise
common prefix of the baseline paths, which is itself a prefix of every path;
it ends in a separator only when the raw common prefix already does or the
result degenerated to a pure separator run; and when the raw common prefix
does not end in a separator, the result is empty, a pure separator run, or is
cut exactly before a separator of the raw prefix (directory-name granularity)
carrying no trailing separator of its own. -/
theorem c4_amended (ps : List Str) (_hne : ps ≠ []) :
    (wtw_common_dir ps <+: commonprefix_chars ps) ∧
    (∀ p ∈ ps, commonprefix_chars ps <+: p) ∧
    (ends_with_slash (wtw_common_dir ps) = true →
      ends_with_slash (commonprefix_chars ps) = true ∨ ∀ c ∈ wtw_common_dir ps, c = slash) ∧
    (ends_with_slash (commonprefix_chars ps) = false →
      wtw_common_dir ps = [] ∨ (∀ c ∈ wtw_common_dir ps, c = slash) ∨
      ((wtw_common_dir ps).length < (commonprefix_chars ps).length ∧
        (commonprefix_chars ps)[(wtw_common_dir ps).length]? = some slash ∧
        ends_with_slash (wtw_common_dir ps) = false)) := by
  unfold wtw_common_dir
  by_cases hcp : ends_with_slash (commonprefix_chars ps) = true
  · rw [if_pos hcp]
    exact ⟨List.prefix_refl _, fun p hp => commonprefix_chars_is_common ps p hp,
      fun _ => Or.inl hcp, fun hf => absurd hcp (by simp [hf])⟩
  · rw [if_neg hcp]
    exact ⟨posix_dirname_is_pref _, fun p hp => commonprefix_chars_is_common ps p hp,
      fun h => Or.inr (posix_dirname_all_slash_of_ends _ h),
      fun _ => posix_dirname_boundary _⟩

/-- Witness for the amended C4 on two paths sharing the directory /a/b. -/
theorem c4_amended_witness :
    wtw_common_dir ["/a/b/x.py".toList, "/a/b/y.py".toList] <+:
      commonprefix_chars ["/a/b/x.py".toList, "/a/b/y.py".toList] ∧
    commonprefix_chars ["/a/b/x.py".toList, "/a/b/y.py".toList] <+: "/a/b/x.py".toList := by
  have h := c4_amended ["/a/b/x.py".toList, "/a/b/y.py".toList] (by decide)
  exact ⟨h.1, h.2.1 ("/a/b/x.py".toList) (by decide)⟩

end WTW
